import Mathlib

/-!
Verification of the Smart-Research-Assistant ingestion / retrieval /
grounded-generation pipeline (`src/backend`).  Python strings are embedded
as `List Char`; fallible external calls (Pinecone, the embedding service,
document loaders) are passed in as explicit `Except` / `Option` values or
oracles, mirroring the `try`/`except` structure of the source.  Character
classes (`str.isdigit`, `\w`, `str.lower`, whitespace) are modelled over
ASCII, which is the range exercised by every concrete input below.
-/

set_option maxHeartbeats 1600000

namespace SRA

/-- Python strings, embedded as lists of characters. -/
abbrev Str := List Char

/-- `str.lower()` (ASCII model). -/
def pyLower (s : Str) : Str := s.map Char.toLower

/-- Python whitespace, as stripped by `str.strip()` (ASCII model). -/
def isPyWs (c : Char) : Bool :=
  c = ' ' || c = '\t' || c = '\n' || c = '\r' || c = '\x0b' || c = '\x0c'

/-- `str.strip()`: drop whitespace from both ends. -/
def pyStrip (s : Str) : Str :=
  ((s.dropWhile isPyWs).reverse.dropWhile isPyWs).reverse

/-- `text.split("\n")`: split into lines; `"".split("\n") == [""]`. -/
def splitNl : Str → List Str
  | [] => [[]]
  | c :: rest =>
    if c = '\n' then [] :: splitNl rest
    else
      match splitNl rest with
      | [] => [[c]]
      | h :: t => (c :: h) :: t

/-! ## Chunker (`src/backend/utils.py`, `split_chunks`)

`split_chunks` delegates the actual text splitting to langchain's
`RecursiveCharacterTextSplitter(chunk_size=500, chunk_overlap=100)`, which is
third-party code not in this repository. -/

/-- Modelled from the spec: the Chunker's length-bounded splitting strategy
(`RecursiveCharacterTextSplitter` is external).  Target chunk length `L = 500`
characters with overlap `O = 100`, so the window advances by `L - O = 400`;
a document fitting in one window is a single chunk.  The `fuel` argument only
bounds recursion; `splitText` supplies enough for any input. -/
def splitGo : Nat → Str → List Str
  | 0, t => [t]
  | fuel + 1, t =>
    if t.length ≤ 500 then [t]
    else t.take 500 :: splitGo fuel (t.drop 400)

/-- Modelled from the spec: split one document's text into overlapping chunks;
a document that is empty after extraction yields zero chunks and is dropped. -/
def splitText (t : Str) : List Str :=
  if t = [] then [] else splitGo t.length t

/-- A loaded page: extracted text plus the originating filename
(the dicts `{"page": ..., "filename": ...}` built by `load_documents`). -/
structure Page where
  content : Str
  filename : Str
deriving DecidableEq

/-- A chunk dict `{"chunk": ..., "filename": ...}`: chunk text plus source. -/
structure ChunkItem where
  text : Str
  filename : Str
deriving DecidableEq

/-- `split_chunks` (`utils.py` lines 44-67): split every page and tag each
resulting chunk with the page's filename. -/
def split_chunks (pages : List Page) : List ChunkItem :=
  pages.flatMap (fun pg => (splitText pg.content).map (fun c => ⟨c, pg.filename⟩))

/-- Total character count of a chunk list. -/
def chunkLenSum (cs : List ChunkItem) : Nat :=
  (cs.map (fun c => c.text.length)).sum

/-! ## Pinecone connection (`src/backend/config/pinecone.py`) -/

/-- The hardcoded index name in `pinecone_connection`. -/
def indexName : String := "nabla-rag-poc"

/-- `pc.has_index(name)` over the modelled control-plane state: the list of
existing index names. -/
def has_index (s : List String) (name : String) : Bool := s.contains name

/-- `pc.create_index(name, ...)`: register the new index. -/
def create_index (s : List String) (name : String) : List String := s ++ [name]

/-- `pinecone_connection` (`config/pinecone.py` lines 9-23): create the index
only when it does not exist; a creation failure (`createOk = false`) is caught
by the `except` and printed, leaving the state unchanged — never raised. -/
def pinecone_connection (createOk : Bool) (s : List String) : List String :=
  if has_index s indexName then s
  else if createOk then create_index s indexName else s

/-! ## Retrieval (`src/backend/utils.py`, `retreive_relavant_chunks`) -/

/-- One element of `results['matches']`: its `metadata` dict. -/
structure QueryMatch where
  text : Str
  source : Str
deriving DecidableEq

/-- The `Document(page_content=..., metadata=...)` objects returned. -/
structure RetrievedDoc where
  page_content : Str
  metadata_source : Str
deriving DecidableEq

/-- `retreive_relavant_chunks` (`utils.py` lines 127-150), given the outcome
of `index.query` (an empty or nonexistent namespace yields `.ok []`; a raised
error is `.error e` and is caught, returning `[]`). -/
def retreive_relavant_chunks (queryRes : Except String (List QueryMatch)) :
    List RetrievedDoc :=
  match queryRes with
  | .error _ => []
  | .ok ms => ms.map (fun m => ⟨m.text, m.source⟩)

/-! ## Embedding step (`src/backend/utils.py`, `convert_to_embeddings`)

Embedding vectors are `float[768]`; their numeric content is irrelevant to
every claim, so the vector type is a parameter `V`. -/

/-- One element of `embed_docs`: the dict
`{"id": ..., "values": ..., "metadata": {"text": ..., "source": ...}}`. -/
structure EmbedDoc (V : Type) where
  id : String
  values : V
  meta_text : Str
  meta_source : Str

/-- `convert_to_embeddings` (`utils.py` lines 71-109).  `embedder = none`
models the outer `try` failing to initialise `GoogleGenerativeAIEmbeddings`
(caught, returns `[]`); `embed c = none` models a per-item
`embeddings.embed_query` exception (caught, item skipped, the enumeration
index `i` still advances). -/
def convert_to_embeddings {V : Type} (embedder : Option (Str → Option V))
    (split_docs : List ChunkItem) : List (EmbedDoc V) :=
  match embedder with
  | none => []
  | some embed =>
    split_docs.enum.filterMap (fun p =>
      match embed p.2.text with
      | some v => some ⟨"doc_" ++ Nat.repr p.1, v, p.2.text, p.2.filename⟩
      | none => none)

/-! ## Vector store (`src/backend/utils.py`, `add_embeddings_to_pinecone`) -/

/-- The namespace contents: vectors keyed by id (insertion order kept). -/
abbrev Store (V : Type) := List (String × V)

/-- Upsert one vector: overwrite in place when the id exists, else append. -/
def upsertOne {V : Type} (st : Store V) (id : String) (v : V) : Store V :=
  if st.any (fun p => p.1 = id) then
    st.map (fun p => if p.1 = id then (id, v) else p)
  else st ++ [(id, v)]

/-- `index.upsert(vectors, namespace="EZTask")` over a whole batch. -/
def upsertBatch {V : Type} (st : Store V) (docs : List (EmbedDoc V)) : Store V :=
  docs.foldl (fun s d => upsertOne s d.id d.values) st

/-- `add_embeddings_to_pinecone` (`utils.py` lines 113-125): the upsert is
wrapped in `try`/`except` that only prints, so a failed upsert
(`upsertOk = false`) leaves the store unchanged and raises nothing. -/
def add_embeddings_to_pinecone {V : Type} (upsertOk : Bool)
    (embed_docs : List (EmbedDoc V)) (st : Store V) : Store V :=
  if upsertOk then upsertBatch st embed_docs else st

/-! ## Ingestion entry point (`src/backend/upload.py`, `process_uploaded_files`) -/

/-- Values stored in the returned Python dict. -/
inductive PVal where
  | b (v : Bool)
  | n (v : Nat)
  | s (v : String)
  | strs (v : List String)
deriving DecidableEq

/-- A Python dict with string keys, as an association list. -/
abbrev PDict := List (String × PVal)

/-- Dict lookup. -/
def pdictGet (d : PDict) (k : String) : Option PVal :=
  (d.find? (fun p => p.1 = k)).map (fun p => p.2)

/-- The stage outcomes `process_uploaded_files` depends on.  `earlyExc` is any
exception raised before/at `pinecone_connection`, the temp-dir writes or
`os.listdir` (everything the outer `try` can see before stage 1); `splitExc`
a hypothetical exception inside `split_chunks`.  `load_documents` and
`convert_to_embeddings` catch their own per-item errors and return lists. -/
structure UploadEnv (V : Type) where
  earlyExc : Option String
  pages : List Page
  splitExc : Option String
  embedder : Option (Str → Option V)
  upsertOk : Bool
  fileNames : List String

/-- `process_uploaded_files` (`upload.py` lines 17-96), returning the result
dict together with the store state after the call.  Every `return` dict of the
source appears literally; the trailing branch is the outer `except Exception`. -/
def process_uploaded_files {V : Type} (env : UploadEnv V) (st : Store V) :
    PDict × Store V :=
  match env.earlyExc with
  | some e =>
    ([("success", .b false), ("message", .s ("Error processing files: " ++ e)),
      ("documents_processed", .n 0), ("chunks_created", .n 0),
      ("vectors_stored", .n 0)], st)
  | none =>
    let pages := env.pages
    if pages = [] then
      ([("success", .b false),
        ("message", .s "No valid documents found in uploaded files"),
        ("documents_processed", .n 0), ("chunks_created", .n 0),
        ("vectors_stored", .n 0)], st)
    else
      match env.splitExc with
      | some e =>
        ([("success", .b false),
          ("message", .s ("Error processing files: " ++ e)),
          ("documents_processed", .n 0), ("chunks_created", .n 0),
          ("vectors_stored", .n 0)], st)
      | none =>
        let chunks := split_chunks pages
        if chunks = [] then
          ([("success", .b false),
            ("message", .s "Failed to create chunks from documents"),
            ("documents_processed", .n pages.length), ("chunks_created", .n 0),
            ("vectors_stored", .n 0)], st)
        else
          let embeddings := convert_to_embeddings env.embedder chunks
          if embeddings.isEmpty then
            ([("success", .b false),
              ("message", .s "Failed to create embeddings from chunks"),
              ("documents_processed", .n pages.length),
              ("chunks_created", .n chunks.length),
              ("vectors_stored", .n 0)], st)
          else
            let st' := add_embeddings_to_pinecone env.upsertOk embeddings st
            ([("success", .b true),
              ("message",
               .s "Documents successfully processed and stored in vector database"),
              ("documents_processed", .n pages.length),
              ("chunks_created", .n chunks.length),
              ("vectors_stored", .n embeddings.length),
              ("files_processed", .strs env.fileNames)], st')

/-! ## Challenge-question parsing
(`src/backend/generate_response.py`, `generate_challenge_questions`) -/

/-- The character set of `lstrip("0123456789.- ")`. -/
def isEnumMarker (c : Char) : Bool :=
  c = '0' || c = '1' || c = '2' || c = '3' || c = '4' || c = '5' ||
  c = '6' || c = '7' || c = '8' || c = '9' || c = '.' || c = '-' || c = ' '

/-- `line.strip().lstrip("0123456789.- ")`: drop leading enumeration marks. -/
def lstripMarkers (s : Str) : Str := s.dropWhile isEnumMarker

/-- The structural pass of `generate_challenge_questions`
(`generate_response.py` lines 114-120): keep lines whose stripped form starts
with a digit or `-`, with enumeration markers removed, when nonempty. -/
def structuralParse (raw : Str) : List Str :=
  (splitNl raw).filterMap (fun line =>
    let st := pyStrip line
    if st.isEmpty then none
    else if (st.headD ' ').isDigit || st.headD ' ' = '-' then
      let q := lstripMarkers st
      if q.isEmpty then none else some q
    else none)

/-- The fallback of lines 121-123: the first 3 non-empty stripped lines. -/
def fallbackParse (raw : Str) : List Str :=
  ((splitNl raw).filterMap (fun line =>
    let st := pyStrip line
    if st.isEmpty then none else some st)).take 3

/-- The parsing performed by `generate_challenge_questions`
(`generate_response.py` lines 104-124) on the generator's raw output
`response.content`. -/
def generate_challenge_questions (raw : Str) : List Str :=
  let questions := structuralParse raw
  (if questions.isEmpty then fallbackParse raw else questions).take 3

/-! ## Grounding check (`src/backend/generate_response.py`, `answer_question`) -/

/-- `\w` (ASCII model): letters, digits, underscore. -/
def isWordChar (c : Char) : Bool := c.isAlphanum || c = '_'

/-- The regex class `[\s\w\d]`. -/
def isClassChar (c : Char) : Bool := isPyWs c || isWordChar c

/-- Match the regex tail `[\s\w\d]*[\.:]` at the start of `s`: a run of
class characters followed by `.` or `:` ( `.`/`:` are not class characters,
so a single scan decides greedy matching). -/
def afterClassPunct : Str → Bool
  | [] => false
  | c :: rest =>
    if c = '.' || c = ':' then true
    else if isClassChar c then afterClassPunct rest
    else false

/-- `p` occurs as a contiguous substring of `t` (the semantics of
`re.search` for a literal pattern). -/
def containsSub (t p : Str) : Bool :=
  (List.range (t.length + 1)).any (fun i => p.isPrefixOf (t.drop i))

/-- `re.search(kw + "[\s\w\d]*[\.:]", t)` for a literal keyword `kw`. -/
def searchKwPat (t kw : Str) : Bool :=
  (List.range (t.length + 1)).any (fun i =>
    kw.isPrefixOf (t.drop i) && afterClassPunct ((t.drop i).drop kw.length))

/-- The `justification_patterns` scan of `answer_question`
(`generate_response.py` lines 93-97): six patterns, `re.IGNORECASE` modelled
by lowering the text (the patterns are already lowercase). -/
def justificationFound (t : Str) : Bool :=
  let lt := pyLower t
  searchKwPat lt "section".data || searchKwPat lt "paragraph".data ||
  searchKwPat lt "quote".data || containsSub lt "supported by".data ||
  containsSub lt "according to".data || containsSub lt "as stated in".data

/-- The disclaimer appended on line 98. -/
def disclaimer : Str :=
  "\n\nNote: The answer could not be verified with a document-based justification.".data

/-- The post-generation step of `answer_question`
(`generate_response.py` lines 92-98) applied to the generated text. -/
def answer_postprocess (t : Str) : Str :=
  if justificationFound t then t else t ++ disclaimer

/-- The claim's marker set, following the spec's words: a case-insensitive
occurrence of one of the five phrasings "supported by", "according to",
"section", "paragraph", "quote" as a plain substring. -/
def claimMarkerFound (t : Str) : Bool :=
  let lt := pyLower t
  containsSub lt "supported by".data || containsSub lt "according to".data ||
  containsSub lt "section".data || containsSub lt "paragraph".data ||
  containsSub lt "quote".data

/-- `p` occurs as a substring of `t`, as a decomposition. -/
def OccursSub (t p : Str) : Prop := ∃ u v, t = u ++ p ++ v

/-- The amended grounding condition, stated declaratively: one of the three
literal phrasings "supported by", "according to", "as stated in" occurs in
the lowered text, or one of the keywords "section", "paragraph", "quote"
occurs followed by a (possibly empty) run of whitespace/word characters and
then a `.` or `:`. -/
def KwPatOccurs (t kw : Str) : Prop :=
  ∃ u mid pc v, t = u ++ kw ++ mid ++ pc :: v ∧
    (∀ c ∈ mid, isClassChar c = true) ∧ (pc = '.' ∨ pc = ':')

/-- Declarative form of the code's grounding-marker check. -/
def AmendedGrounded (t : Str) : Prop :=
  KwPatOccurs (pyLower t) "section".data ∨
  KwPatOccurs (pyLower t) "paragraph".data ∨
  KwPatOccurs (pyLower t) "quote".data ∨
  OccursSub (pyLower t) "supported by".data ∨
  OccursSub (pyLower t) "according to".data ∨
  OccursSub (pyLower t) "as stated in".data

/-! ## Lexical similarity
(`src/backend/generate_response.py`, `compute_similarity_score`)

`compute_similarity_score` calls
`SequenceMatcher(None, user_answer.lower(), actual_answer.lower()).ratio()`.
The matcher is embedded faithfully from CPython's `difflib`: with
`isjunk=None` the junk set is empty, and `autojunk` purges "popular" elements
of `b` (those occurring more than `len(b)//100 + 1` times when
`len(b) >= 200`) from the index `b2j`. -/

/-- The running best match `(besti, bestj, bestsize)`. -/
structure Best where
  besti : Nat
  bestj : Nat
  bestsize : Nat
deriving DecidableEq

/-- Is `c` an autojunk-"popular" element of `b`? -/
def isPopular (b : Str) (c : Char) : Bool :=
  decide (200 ≤ b.length) && decide (b.length / 100 + 1 < b.count c)

/-- `self.b2j`: ascending occurrence indices of `c` in `b`, with popular
elements purged. -/
def b2j (b : Str) (c : Char) : List Nat :=
  if isPopular b c then []
  else (List.range b.length).filter (fun j => b.getD j ' ' == c)

/-- The inner loop of `find_longest_match` over `b2j.get(a[i])`: `old` is the
previous `j2len` dict (default 0), `acc` the `newj2len` being built; a `j`
below `blo` is skipped (`continue`), one at or above `bhi` stops the loop
(`break`; the index lists are ascending). -/
def flmInner (i : Nat) (old : Nat → Nat) (blo bhi : Nat) :
    List Nat → (Nat → Nat) → Best → (Nat → Nat) × Best
  | [], acc, best => (acc, best)
  | j :: js, acc, best =>
    if j < blo then flmInner i old blo bhi js acc best
    else if bhi ≤ j then (acc, best)
    else
      let k := (if j = 0 then 0 else old (j - 1)) + 1
      let acc' := fun j' => if j' = j then k else acc j'
      let best' : Best := if best.bestsize < k then ⟨i + 1 - k, j + 1 - k, k⟩ else best
      flmInner i old blo bhi js acc' best'

/-- The outer loop of `find_longest_match` over `i in range(alo, ahi)`. -/
def flmOuter (a : Str) (bj : Char → List Nat) (blo bhi : Nat) :
    List Nat → (Nat → Nat) → Best → Best
  | [], _, best => best
  | i :: is, j2len, best =>
    let r := flmInner i j2len blo bhi (bj (a.getD i ' ')) (fun _ => 0) best
    flmOuter a bj blo bhi is r.1 r.2

/-- The leftward extension loops of `find_longest_match` (`junkFlag = false`
for the `not isbjunk` loop, `true` for the junk one).  `fuel ≥ besti` bounds
the loop exactly as in the source, where `besti` strictly decreases. -/
def extendLoopL (a b : Str) (alo blo : Nat) (isbjunk : Char → Bool)
    (junkFlag : Bool) : Nat → Best → Best
  | 0, best => best
  | fuel + 1, best =>
    if alo < best.besti ∧ blo < best.bestj ∧
        isbjunk (b.getD (best.bestj - 1) ' ') = junkFlag ∧
        a.getD (best.besti - 1) ' ' = b.getD (best.bestj - 1) ' ' then
      extendLoopL a b alo blo isbjunk junkFlag fuel
        ⟨best.besti - 1, best.bestj - 1, best.bestsize + 1⟩
    else best

/-- The rightward extension loops of `find_longest_match`. -/
def extendLoopR (a b : Str) (ahi bhi : Nat) (isbjunk : Char → Bool)
    (junkFlag : Bool) : Nat → Best → Best
  | 0, best => best
  | fuel + 1, best =>
    if best.besti + best.bestsize < ahi ∧ best.bestj + best.bestsize < bhi ∧
        isbjunk (b.getD (best.bestj + best.bestsize) ' ') = junkFlag ∧
        a.getD (best.besti + best.bestsize) ' ' =
          b.getD (best.bestj + best.bestsize) ' ' then
      extendLoopR a b ahi bhi isbjunk junkFlag fuel
        ⟨best.besti, best.bestj, best.bestsize + 1⟩
    else best

/-- `SequenceMatcher.find_longest_match` on `a[alo:ahi]` / `b[blo:bhi]`.
With `isjunk=None` the junk set is empty, so `isbjunk` is instantiated to
`fun _ => false` below and the two junk extension loops never fire. -/
def find_longest_match (a b : Str) (bj : Char → List Nat)
    (isbjunk : Char → Bool) (alo ahi blo bhi : Nat) : Best :=
  let best1 := flmOuter a bj blo bhi (List.range' alo (ahi - alo))
    (fun _ => 0) ⟨alo, blo, 0⟩
  let best2 := extendLoopL a b alo blo isbjunk false best1.besti best1
  let best3 := extendLoopR a b ahi bhi isbjunk false (ahi + bhi) best2
  let best4 := extendLoopL a b alo blo isbjunk true best3.besti best3
  extendLoopR a b ahi bhi isbjunk true (ahi + bhi) best4

/-- Total size of the matching blocks found by `get_matching_blocks`
(the queue recursion; adjacent-block merging and the final sentinel do not
change the total).  `fuel` bounds the recursion depth; the initial fuel
supplied by `seqMatcherMatches` exceeds the interval sizes, which bound the
real recursion. -/
def matchTotal (a b : Str) (bj : Char → List Nat) (isbjunk : Char → Bool) :
    Nat → Nat → Nat → Nat → Nat → Nat
  | 0, _, _, _, _ => 0
  | fuel + 1, alo, ahi, blo, bhi =>
    let r := find_longest_match a b bj isbjunk alo ahi blo bhi
    if r.bestsize = 0 then 0
    else
      r.bestsize +
      (if alo < r.besti ∧ blo < r.bestj then
        matchTotal a b bj isbjunk fuel alo r.besti blo r.bestj
      else 0) +
      (if r.besti + r.bestsize < ahi ∧ r.bestj + r.bestsize < bhi then
        matchTotal a b bj isbjunk fuel (r.besti + r.bestsize) ahi
          (r.bestj + r.bestsize) bhi
      else 0)

/-- `M`: the total matched size of `SequenceMatcher(None, a, b)`. -/
def seqMatcherMatches (a b : Str) : Nat :=
  matchTotal a b (b2j b) (fun _ => false) (a.length + b.length + 1)
    0 a.length 0 b.length

/-- `int(SequenceMatcher(None, a, b).ratio() * 100)`: the ratio is
`2.0 * M / T` (`1.0` when `T = 0`), modelled in exact arithmetic; every value
this development evaluates it at is exact in binary floating point as well. -/
def ratioTimes100 (a b : Str) : Nat :=
  let T := a.length + b.length
  if T = 0 then 100 else 200 * seqMatcherMatches a b / T

/-- `compute_similarity_score` (`generate_response.py` lines 139-142). -/
def compute_similarity_score (user_answer actual_answer : Str) : Nat :=
  ratioTimes100 (pyLower user_answer) (pyLower actual_answer)

/-! ## Theorems -/

lemma splitGo_length_le (fuel : Nat) : ∀ t : Str,
    t.length ≤ ((splitGo fuel t).map List.length).sum := by
  induction fuel with
  | zero => intro t; simp [splitGo]
  | succ fuel ih =>
    intro t
    by_cases h : t.length ≤ 500
    · simp [splitGo, h]
    · have hn : ¬ t.length ≤ 500 := h
      simp only [splitGo, if_neg hn]
      have h1 : (t.take 500).length = 500 := by
        simp [List.length_take]; omega
      have h2 := ih (t.drop 400)
      simp only [List.map_cons, List.sum_cons, h1]
      have h3 : (t.drop 400).length = t.length - 400 := by simp
      omega

/-- C5: for every document, the chunks produced by the Chunker cover at least
the document's raw text (overlap can only add characters), and every chunk
carries the originating document's filename as its source id. -/
theorem chunker_coverage_and_source (doc : Page) :
    doc.content.length ≤ chunkLenSum (split_chunks [doc]) ∧
    ∀ c ∈ split_chunks [doc], c.filename = doc.filename := by
  constructor
  · show doc.content.length ≤ chunkLenSum (split_chunks [doc])
    have heq : chunkLenSum (split_chunks [doc]) =
        ((splitText doc.content).map List.length).sum := by
      simp only [split_chunks, List.flatMap_cons, List.flatMap_nil,
        List.append_nil, chunkLenSum, List.map_map]
      rfl
    rw [heq]
    by_cases h : doc.content = []
    · simp [h, splitText]
    · simp only [splitText, if_neg h]
      exact splitGo_length_le doc.content.length doc.content
  · intro c hc
    simp only [split_chunks, List.flatMap_cons, List.flatMap_nil,
      List.append_nil, List.mem_map] at hc
    obtain ⟨t, -, rfl⟩ := hc
    rfl

/-- Witness for C5 at a concrete document. -/
theorem chunker_coverage_and_source_witness :
    ("hello".data).length ≤
      chunkLenSum (split_chunks [⟨"hello".data, "a.txt".data⟩]) ∧
    (⟨"hello".data, "a.txt".data⟩ : ChunkItem).filename = "a.txt".data :=
  ⟨(chunker_coverage_and_source ⟨"hello".data, "a.txt".data⟩).1,
   (chunker_coverage_and_source ⟨"hello".data, "a.txt".data⟩).2
     ⟨"hello".data, "a.txt".data⟩ (by decide)⟩

/-- C6: a raised query error is caught and an empty or nonexistent namespace
(empty match list) is mapped through, so retrieval returns `[]` in both cases
rather than propagating an exception. -/
theorem retrieval_errors_give_empty :
    (∀ e : String, retreive_relavant_chunks (.error e) = []) ∧
    retreive_relavant_chunks (.ok []) = [] := by
  exact ⟨fun _ => rfl, rfl⟩

/-- C8: when the index already exists `pinecone_connection` changes nothing
(and, by construction of the model, raises nothing — a creation failure is
caught and printed), and running it twice equals running it once. -/
theorem pinecone_connection_idempotent (createOk : Bool) (s : List String) :
    (has_index s indexName = true → pinecone_connection createOk s = s) ∧
    pinecone_connection createOk (pinecone_connection createOk s) =
      pinecone_connection createOk s := by
  constructor
  · intro h
    simp [pinecone_connection, h]
  · by_cases h : has_index s indexName = true
    · simp [pinecone_connection, h]
    · cases createOk with
      | false =>
        simp [pinecone_connection, h]
      | true =>
        have h2 : has_index (create_index s indexName) indexName = true := by
          simp [has_index, create_index]
        have hstep : pinecone_connection true s = create_index s indexName := by
          simp [pinecone_connection, h]
        rw [hstep]
        simp [pinecone_connection, h2]

/-- Witness for C8 on a state that already contains the index. -/
theorem pinecone_connection_idempotent_witness :
    pinecone_connection true ["nabla-rag-poc"] = ["nabla-rag-poc"] :=
  (pinecone_connection_idempotent true ["nabla-rag-poc"]).1 (by decide)

/-- C9: every return path of `process_uploaded_files` — including the empty
file list and any stage raising — yields a dict carrying the keys `success`,
`message`, `documents_processed`, `chunks_created` and `vectors_stored`; the
model is total, mirroring the outer `try`/`except` that converts any
exception into the error dict instead of propagating it. -/
theorem ingest_result_has_all_keys {V : Type} (env : UploadEnv V) (st : Store V) :
    (pdictGet (process_uploaded_files env st).1 "success").isSome = true ∧
    (pdictGet (process_uploaded_files env st).1 "message").isSome = true ∧
    (pdictGet (process_uploaded_files env st).1 "documents_processed").isSome = true ∧
    (pdictGet (process_uploaded_files env st).1 "chunks_created").isSome = true ∧
    (pdictGet (process_uploaded_files env st).1 "vectors_stored").isSome = true := by
  unfold process_uploaded_files
  cases env.earlyExc with
  | some e => simp [pdictGet, List.find?]
  | none =>
    by_cases hp : env.pages = []
    · simp [hp, pdictGet, List.find?]
    · simp only [if_neg hp]
      cases env.splitExc with
      | some e => simp [pdictGet, List.find?]
      | none =>
        by_cases hc : split_chunks env.pages = []
        · simp [hc, pdictGet, List.find?]
        · simp only [if_neg hc]
          by_cases he : (convert_to_embeddings env.embedder
              (split_chunks env.pages)).isEmpty
          · simp [he, pdictGet, List.find?]
          · simp [he, pdictGet, List.find?]

/-- The C1 scenario: documents load, chunks and embeddings are produced, but
the Pinecone upsert raises (`upsertOk = false`, swallowed inside
`add_embeddings_to_pinecone`). -/
def c1Env : UploadEnv Nat where
  earlyExc := none
  pages := [⟨"Paris is the capital of France.".data, "doc1.txt".data⟩]
  splitExc := none
  embedder := some (fun _ => some 0)
  upsertOk := false
  fileNames := ["doc1.txt"]

/-- C1: on an ingestion whose vector-store upsert fails after every earlier
stage succeeded, `process_uploaded_files` nevertheless reports
`success = true` with the "successfully ... stored" message, while the store
is in fact left unchanged (nothing was written). -/
theorem store_failure_reported_as_success :
    pdictGet (process_uploaded_files c1Env ([] : Store Nat)).1 "success" =
      some (.b true) ∧
    pdictGet (process_uploaded_files c1Env ([] : Store Nat)).1 "message" =
      some (.s "Documents successfully processed and stored in vector database") ∧
    (process_uploaded_files c1Env ([] : Store Nat)).2 = [] := by
  decide

/-- C2 counterexample: a single line of unstructured prose yields one
question, not three — the parser truncates to at most 3 but never pads. -/
theorem challenge_parse_not_always_three :
    (generate_challenge_questions "Only one line of prose".data).length = 1 := by
  decide

lemma structuralParse_mem_ne_nil {raw q : Str} (h : q ∈ structuralParse raw) :
    q ≠ [] := by
  simp only [structuralParse, List.mem_filterMap] at h
  obtain ⟨line, -, hf⟩ := h
  split at hf
  · exact absurd hf (by simp)
  · split at hf
    · split at hf
      · exact absurd hf (by simp)
      · rename_i h3
        rw [Option.some.injEq] at hf
        subst hf
        simpa [List.isEmpty_iff] using h3
    · exact absurd hf (by simp)

lemma fallbackParse_mem_ne_nil {raw q : Str} (h : q ∈ fallbackParse raw) :
    q ≠ [] := by
  simp only [fallbackParse] at h
  have h' := List.take_subset 3 _ h
  simp only [List.mem_filterMap] at h'
  obtain ⟨line, -, hf⟩ := h'
  split at hf
  · exact absurd hf (by simp)
  · rename_i h1
    rw [Option.some.injEq] at hf
    subst hf
    simpa [List.isEmpty_iff] using h1

/-- C2 amended: the parser returns at most 3 questions, each non-empty; when
structural parsing yields zero items it falls back to the first 3 non-empty
stripped lines; and whenever structural parsing yields at least 3 items it
returns exactly 3. -/
theorem challenge_parse_bounds (raw : Str) :
    (generate_challenge_questions raw).length ≤ 3 ∧
    (∀ q ∈ generate_challenge_questions raw, q ≠ []) ∧
    (structuralParse raw = [] →
      generate_challenge_questions raw = fallbackParse raw) ∧
    (3 ≤ (structuralParse raw).length →
      (generate_challenge_questions raw).length = 3) := by
  refine ⟨?_, ?_, ?_, ?_⟩
  · simp only [generate_challenge_questions, List.length_take]
    omega
  · intro q hq
    simp only [generate_challenge_questions] at hq
    have hq' := List.take_subset 3 _ hq
    by_cases hs : (structuralParse raw).isEmpty
    · simp only [hs, if_true] at hq'
      exact fallbackParse_mem_ne_nil hq'
    · simp only [hs, Bool.false_eq_true, if_false] at hq'
      exact structuralParse_mem_ne_nil hq'
  · intro hs
    simp only [generate_challenge_questions, hs, List.isEmpty_nil, if_true,
      fallbackParse, List.take_take]
    rfl
  · intro hs
    have hs' : (structuralParse raw).isEmpty = false := by
      cases h : structuralParse raw with
      | nil => rw [h] at hs; simp at hs
      | cons a l => simp
    simp only [generate_challenge_questions, hs', Bool.false_eq_true, if_false,
      List.length_take]
    omega

/-- Witness for C2 at concrete raw outputs: a numbered list of 4 gives
exactly 3 non-empty questions; prose falls back to stripped lines. -/
theorem challenge_parse_bounds_witness :
    (generate_challenge_questions "1. A?\n2. B?\n3. C?\n4. D?".data).length = 3 ∧
    "A?".data ≠ ([] : Str) ∧
    generate_challenge_questions "Some prose\nmore prose".data =
      fallbackParse "Some prose\nmore prose".data :=
  ⟨(challenge_parse_bounds "1. A?\n2. B?\n3. C?\n4. D?".data).2.2.2 (by decide),
   (challenge_parse_bounds "1. A?\n2. B?\n3. C?\n4. D?".data).2.1
     "A?".data (by decide),
   (challenge_parse_bounds "Some prose\nmore prose".data).2.2.1 (by decide)⟩

lemma containsSub_iff (t p : Str) : containsSub t p = true ↔ OccursSub t p := by
  constructor
  · intro h
    simp only [containsSub, List.any_eq_true, List.mem_range] at h
    obtain ⟨i, -, hp⟩ := h
    rw [List.isPrefixOf_iff_prefix] at hp
    obtain ⟨v, hv⟩ := hp
    exact ⟨t.take i, v, by rw [List.append_assoc, hv, List.take_append_drop]⟩
  · rintro ⟨u, v, rfl⟩
    simp only [containsSub, List.any_eq_true, List.mem_range]
    refine ⟨u.length, ?_, ?_⟩
    · simp only [List.length_append]
      omega
    · rw [List.append_assoc, List.drop_left, List.isPrefixOf_iff_prefix]
      exact ⟨v, rfl⟩

lemma afterClassPunct_iff (s : Str) : afterClassPunct s = true ↔
    ∃ mid pc v, s = mid ++ pc :: v ∧ (∀ c ∈ mid, isClassChar c = true) ∧
      (pc = '.' ∨ pc = ':') := by
  induction s with
  | nil =>
    simp only [afterClassPunct]
    constructor
    · intro h; exact absurd h (by simp)
    · rintro ⟨mid, pc, v, heq, -, -⟩
      exact absurd heq (by simp)
  | cons c rest ih =>
    by_cases hp : c = '.' ∨ c = ':'
    · have hb : (c = '.' || c = ':') = true := by
        rcases hp with h | h <;> simp [h]
      constructor
      · intro _
        exact ⟨[], c, rest, rfl, by simp, hp⟩
      · intro _
        simp [afterClassPunct, hb]
    · have hb : (c = '.' || c = ':') = false := by
        push_neg at hp
        simp [hp.1, hp.2]
      by_cases hcl : isClassChar c = true
      · have hstep : afterClassPunct (c :: rest) = afterClassPunct rest := by
          simp [afterClassPunct, hb, hcl]
        rw [hstep, ih]
        constructor
        · rintro ⟨mid, pc, v, rfl, hmid, hpc⟩
          refine ⟨c :: mid, pc, v, rfl, ?_, hpc⟩
          intro x hx
          rcases List.mem_cons.mp hx with rfl | hx
          · exact hcl
          · exact hmid x hx
        · rintro ⟨mid, pc, v, heq, hmid, hpc⟩
          cases mid with
          | nil =>
            simp only [List.nil_append, List.cons.injEq] at heq
            obtain ⟨rfl, rfl⟩ := heq
            exact absurd hpc hp
          | cons d mid' =>
            rw [List.cons_append, List.cons.injEq] at heq
            obtain ⟨rfl, h2⟩ := heq
            exact ⟨mid', pc, v, h2, fun x hx => hmid x (List.mem_cons_of_mem _ hx),
              hpc⟩
      · have hstep : afterClassPunct (c :: rest) = false := by
          simp only [afterClassPunct, hb, Bool.false_eq_true, if_false]
          simp [hcl]
        rw [hstep]
        constructor
        · intro h; exact absurd h (by simp)
        · rintro ⟨mid, pc, v, heq, hmid, hpc⟩
          cases mid with
          | nil =>
            simp only [List.nil_append, List.cons.injEq] at heq
            obtain ⟨rfl, -⟩ := heq
            exact absurd hpc hp
          | cons d mid' =>
            rw [List.cons_append, List.cons.injEq] at heq
            obtain ⟨rfl, -⟩ := heq
            exact absurd (hmid c (by simp)) (by simpa using hcl)

lemma searchKwPat_iff (t kw : Str) : searchKwPat t kw = true ↔ KwPatOccurs t kw := by
  constructor
  · intro h
    simp only [searchKwPat, List.any_eq_true, List.mem_range,
      Bool.and_eq_true] at h
    obtain ⟨i, -, hpre, hafter⟩ := h
    rw [List.isPrefixOf_iff_prefix] at hpre
    obtain ⟨w, hw⟩ := hpre
    have hw2 : (t.drop i).drop kw.length = w := by rw [← hw, List.drop_left]
    rw [hw2, afterClassPunct_iff] at hafter
    obtain ⟨mid, pc, v, rfl, hmid, hpc⟩ := hafter
    refine ⟨t.take i, mid, pc, v, ?_, hmid, hpc⟩
    conv_lhs => rw [← List.take_append_drop i t, ← hw]
    simp [List.append_assoc]
  · rintro ⟨u, mid, pc, v, rfl, hmid, hpc⟩
    simp only [searchKwPat, List.any_eq_true, List.mem_range, Bool.and_eq_true]
    refine ⟨u.length, ?_, ?_, ?_⟩
    · simp only [List.length_append]
      omega
    · rw [List.append_assoc, List.append_assoc, List.drop_left,
        List.isPrefixOf_iff_prefix]
      exact ⟨mid ++ pc :: v, rfl⟩
    · rw [List.append_assoc, List.append_assoc, List.drop_left, List.drop_left,
        afterClassPunct_iff]
      exact ⟨mid, pc, v, rfl, hmid, hpc⟩

lemma justificationFound_iff (t : Str) :
    justificationFound t = true ↔ AmendedGrounded t := by
  simp only [justificationFound, AmendedGrounded, Bool.or_eq_true,
    containsSub_iff, searchKwPat_iff]
  tauto

/-- C4 counterexample: "As stated in the document." contains none of the
claim's five marker phrasings yet is returned unchanged (the code also
accepts "as stated in"), while "See section 3" contains the claimed marker
"section" yet gets the disclaimer appended (the code's section pattern
requires a trailing `.` or `:`).  The claim fails in both directions. -/
theorem grounding_check_counterexample :
    claimMarkerFound "As stated in the document.".data = false ∧
    answer_postprocess "As stated in the document.".data =
      "As stated in the document.".data ∧
    claimMarkerFound "See section 3".data = true ∧
    answer_postprocess "See section 3".data =
      "See section 3".data ++ disclaimer ∧
    "See section 3".data ++ disclaimer ≠ "See section 3".data := by
  decide

/-- C4 amended: the generated text is returned unchanged exactly when one of
the code's six marker patterns occurs case-insensitively — the literal
phrasings "supported by", "according to", "as stated in", or one of
"section"/"paragraph"/"quote" followed by a run of whitespace/word characters
and then `.` or `:`; otherwise the fixed disclaimer is appended. -/
theorem grounding_check_amended (t : Str) :
    (answer_postprocess t = t ∧ AmendedGrounded t) ∨
    (answer_postprocess t = t ++ disclaimer ∧ ¬ AmendedGrounded t) := by
  by_cases h : justificationFound t = true
  · exact Or.inl ⟨by simp [answer_postprocess, h], (justificationFound_iff t).1 h⟩
  · refine Or.inr ⟨by simp [answer_postprocess, h], fun hg => h ?_⟩
    exact (justificationFound_iff t).2 hg

/-- Decimal digit list of `n`, most significant first: the closed form of
`Nat.toDigitsCore` at base 10 with sufficient fuel. -/
def tdr (n : Nat) : List Char :=
  if _h : n < 10 then [Nat.digitChar n]
  else tdr (n / 10) ++ [Nat.digitChar (n % 10)]
decreasing_by exact Nat.div_lt_self (by omega) (by omega)

lemma tdr_lt {n : Nat} (h : n < 10) : tdr n = [Nat.digitChar n] := by
  rw [tdr]
  simp [h]

lemma tdr_ge {n : Nat} (h : ¬ n < 10) :
    tdr n = tdr (n / 10) ++ [Nat.digitChar (n % 10)] := by
  rw [tdr]
  simp [h]

lemma toDigitsCore_succ (f n : Nat) (ds : List Char) :
    Nat.toDigitsCore 10 (f + 1) n ds =
      if n / 10 = 0 then Nat.digitChar (n % 10) :: ds
      else Nat.toDigitsCore 10 f (n / 10) (Nat.digitChar (n % 10) :: ds) := rfl

lemma toDigitsCore_eq_tdr : ∀ f n ds, n < f →
    Nat.toDigitsCore 10 f n ds = tdr n ++ ds := by
  intro f
  induction f with
  | zero => intro n ds h; omega
  | succ f ih =>
    intro n ds h
    rw [toDigitsCore_succ]
    by_cases h10 : n < 10
    · rw [if_pos (Nat.div_eq_of_lt h10), tdr_lt h10,
        Nat.mod_eq_of_lt h10, List.singleton_append]
    · have hne : ¬ n / 10 = 0 := by omega
      have hlt : n / 10 < f := by
        have := Nat.div_lt_self (show 0 < n by omega) (show 1 < 10 by omega)
        omega
      rw [if_neg hne, ih (n / 10) _ hlt, tdr_ge h10, List.append_assoc,
        List.singleton_append]

lemma tdr_ne_nil (n : Nat) : tdr n ≠ [] := by
  by_cases h : n < 10
  · rw [tdr_lt h]; simp
  · rw [tdr_ge h]; simp

lemma digitChar_inj : ∀ a, a < 10 → ∀ b, b < 10 →
    Nat.digitChar a = Nat.digitChar b → a = b := by decide

lemma tdr_inj : ∀ m n, tdr m = tdr n → m = n := by
  intro m
  induction m using Nat.strong_induction_on with
  | _ m ih =>
    intro n heq
    by_cases hm : m < 10 <;> by_cases hn : n < 10
    · rw [tdr_lt hm, tdr_lt hn, List.cons.injEq] at heq
      exact digitChar_inj m hm n hn heq.1
    · rw [tdr_lt hm, tdr_ge hn] at heq
      have hlen := congrArg List.length heq
      simp only [List.length_append, List.length_cons, List.length_nil] at hlen
      have := tdr_ne_nil (n / 10)
      rw [← List.length_pos] at this
      omega
    · rw [tdr_ge hm, tdr_lt hn] at heq
      have hlen := congrArg List.length heq
      simp only [List.length_append, List.length_cons, List.length_nil] at hlen
      have := tdr_ne_nil (m / 10)
      rw [← List.length_pos] at this
      omega
    · rw [tdr_ge hm, tdr_ge hn] at heq
      obtain ⟨h1, h2⟩ := List.append_inj' heq rfl
      have hdiv : m / 10 = n / 10 :=
        ih (m / 10) (Nat.div_lt_self (by omega) (by omega)) (n / 10) h1
      rw [List.cons.injEq] at h2
      have hmod : m % 10 = n % 10 :=
        digitChar_inj _ (Nat.mod_lt _ (by omega)) _ (Nat.mod_lt _ (by omega)) h2.1
      omega

lemma nat_repr_inj {m n : Nat} (h : Nat.repr m = Nat.repr n) : m = n := by
  have hdata := congrArg String.data h
  have hm : (Nat.repr m).data = tdr m := by
    show (Nat.toDigits 10 m).asString.data = tdr m
    have := toDigitsCore_eq_tdr (m + 1) m [] (Nat.lt_succ_self m)
    simp only [List.asString]
    rw [show Nat.toDigits 10 m = Nat.toDigitsCore 10 (m + 1) m [] from rfl, this,
      List.append_nil]
  have hn : (Nat.repr n).data = tdr n := by
    show (Nat.toDigits 10 n).asString.data = tdr n
    have := toDigitsCore_eq_tdr (n + 1) n [] (Nat.lt_succ_self n)
    simp only [List.asString]
    rw [show Nat.toDigits 10 n = Nat.toDigitsCore 10 (n + 1) n [] from rfl, this,
      List.append_nil]
  exact tdr_inj m n (by rw [← hm, ← hn, hdata])

lemma docId_inj {m n : Nat}
    (h : "doc_" ++ Nat.repr m = "doc_" ++ Nat.repr n) : m = n := by
  apply nat_repr_inj
  have hdata := congrArg String.data h
  have happ : ∀ s t : String, (s ++ t).data = s.data ++ t.data := fun s t => rfl
  rw [happ, happ] at hdata
  have := List.append_cancel_left hdata
  cases hr1 : Nat.repr m with
  | mk d1 =>
    cases hr2 : Nat.repr n with
    | mk d2 =>
      rw [hr1, hr2] at this
      exact congrArg String.mk this

/-- C7 counterexample: two ingestion batches (of one chunk each) both assign
the id `doc_0`; upserting the second batch after the first leaves a single
vector in the namespace — the second batch's vector overwrote the first's
instead of coexisting with it, so ids do collide between batches. -/
theorem ingest_ids_collide_across_batches :
    (convert_to_embeddings (some (fun _ => some (1 : Nat)))
      [⟨"alpha".data, "a.txt".data⟩]).map (fun d => d.id) = ["doc_0"] ∧
    (convert_to_embeddings (some (fun _ => some (2 : Nat)))
      [⟨"beta".data, "b.txt".data⟩]).map (fun d => d.id) = ["doc_0"] ∧
    upsertBatch
      (upsertBatch ([] : Store Nat)
        (convert_to_embeddings (some (fun _ => some 1))
          [⟨"alpha".data, "a.txt".data⟩]))
      (convert_to_embeddings (some (fun _ => some 2))
        [⟨"beta".data, "b.txt".data⟩]) = [("doc_0", 2)] := by
  decide

/-- C7 amended: ids are unique within a single ingestion batch
(`doc_0, doc_1, ...` over the enumeration of that batch's chunks, skipping
failed embeddings); they are not unique across batches, since every call
restarts at `doc_0` — a later batch reuses the ids of an earlier one and
overwrites its vectors on upsert. -/
theorem embed_ids_nodup_within_batch {V : Type}
    (embedder : Option (Str → Option V)) (docs : List ChunkItem) :
    ((convert_to_embeddings embedder docs).map (fun d => d.id)).Nodup := by
  cases embedder with
  | none => simp [convert_to_embeddings]
  | some embed =>
    show List.Pairwise _ _
    rw [convert_to_embeddings, List.pairwise_map, List.pairwise_filterMap]
    have h1 : (docs.enum.map Prod.fst).Nodup := by
      rw [List.enum_map_fst]
      exact List.nodup_range _
    rw [List.Nodup, List.pairwise_map] at h1
    refine h1.imp ?_
    intro p q hne b hb b' hb'
    have hid : b.id = "doc_" ++ Nat.repr p.1 := by
      cases hemb : embed p.2.text with
      | none => rw [hemb] at hb; exact absurd hb (by simp)
      | some v =>
        rw [hemb] at hb
        simp only [Option.mem_def, Option.some.injEq] at hb
        rw [← hb]
    have hid' : b'.id = "doc_" ++ Nat.repr q.1 := by
      cases hemb : embed q.2.text with
      | none => rw [hemb] at hb'; exact absurd hb' (by simp)
      | some v =>
        rw [hemb] at hb'
        simp only [Option.mem_def, Option.some.injEq] at hb'
        rw [← hb']
    rw [hid, hid']
    intro hcontra
    exact hne (docId_inj hcontra)

/-- `a'` is a letter-case variant of `a`: same length, and corresponding
characters agree after lowercasing (ASCII model of Python case folding). -/
def caseVariant : Str → Str → Bool
  | [], [] => true
  | c :: s, c' :: s' => (c.toLower == c'.toLower) && caseVariant s s'
  | _, _ => false

lemma caseVariant_lower : ∀ {a a' : Str}, caseVariant a a' = true →
    pyLower a = pyLower a' := by
  intro a
  induction a with
  | nil =>
    intro a' h
    cases a' with
    | nil => rfl
    | cons c s => exact absurd h (by simp [caseVariant])
  | cons c s ih =>
    intro a' h
    cases a' with
    | nil => exact absurd h (by simp [caseVariant])
    | cons c' s' =>
      simp only [caseVariant, Bool.and_eq_true, beq_iff_eq] at h
      simp only [pyLower, List.map_cons, List.cons.injEq]
      exact ⟨h.1, ih h.2⟩

/-- C10: `compute_similarity_score` is invariant under changing the letter
case of either argument, since both are lowercased before matching. -/
theorem similarity_case_invariant (a b a' b' : Str)
    (ha : caseVariant a a' = true) (hb : caseVariant b b' = true) :
    compute_similarity_score a b = compute_similarity_score a' b' := by
  unfold compute_similarity_score
  rw [caseVariant_lower ha, caseVariant_lower hb]

/-- Witness for C10 at concrete case-variants. -/
theorem similarity_case_invariant_witness :
    caseVariant "Hello there".data "hELLO THERE".data = true ∧
    caseVariant "ok!".data "OK!".data = true ∧
    compute_similarity_score "Hello there".data "ok!".data =
      compute_similarity_score "hELLO THERE".data "OK!".data :=
  ⟨by decide, by decide,
   similarity_case_invariant _ _ _ _ (by decide) (by decide)⟩

/-! ### Behaviour of the matcher on identical sequences

For `SequenceMatcher(None, a, a)` the inner dynamic-programming loop keeps its
best match on the diagonal, and the extension loops then grow it to the whole
sequence, so the ratio of a string with itself is always `1.0` — even when
autojunk has purged popular characters from `b2j`. -/

/-- The tentative chain length `k = j2len.get(j-1, 0) + 1` of the inner loop. -/
def kval (old : Nat → Nat) (j : Nat) : Nat :=
  (if j = 0 then 0 else old (j - 1)) + 1

/-- Position `j` of `a` holds a character not purged by autojunk. -/
def okPos (a : Str) (j : Nat) : Bool := !(isPopular a (a.getD j ' '))

/-- Length of the run of non-purged positions ending at `j`. -/
def runLen (a : Str) : Nat → Nat
  | 0 => if okPos a 0 then 1 else 0
  | j + 1 => if okPos a (j + 1) then runLen a j + 1 else 0

lemma runLen_zero (a : Str) : runLen a 0 = if okPos a 0 then 1 else 0 := rfl

lemma runLen_succ (a : Str) (j : Nat) :
    runLen a (j + 1) = if okPos a (j + 1) then runLen a j + 1 else 0 := rfl

lemma runLen_le (a : Str) (j : Nat) : runLen a j ≤ j + 1 := by
  induction j with
  | zero => rw [runLen_zero]; split <;> omega
  | succ j ih => rw [runLen_succ]; split <;> omega

lemma flmInner_acc (m : Nat) (old : Nat → Nat) (bhi : Nat) :
    ∀ (js : List Nat) (acc : Nat → Nat) (best : Best), (∀ j ∈ js, j < bhi) →
      (flmInner m old 0 bhi js acc best).1 =
        fun j => if j ∈ js then kval old j else acc j := by
  intro js
  induction js with
  | nil =>
    intro acc best _
    funext j
    simp [flmInner]
  | cons j0 js ih =>
    intro acc best hbhi
    have hj0 : j0 < bhi := hbhi j0 (by simp)
    simp only [flmInner]
    rw [if_neg (by omega : ¬ j0 < 0), if_neg (by omega : ¬ bhi ≤ j0)]
    rw [ih _ _ (fun j hj => hbhi j (by simp [hj]))]
    funext j
    by_cases hjs : j ∈ js
    · simp [hjs]
    · by_cases hje : j = j0
      · subst hje
        simp [hjs, kval]
      · simp [hjs, hje]

lemma flmInner_noUpdate (m : Nat) (old : Nat → Nat) (bhi : Nat) :
    ∀ (js : List Nat) (acc : Nat → Nat) (best : Best),
      (∀ j ∈ js, j < bhi) → (∀ j ∈ js, kval old j ≤ best.bestsize) →
      (flmInner m old 0 bhi js acc best).2 = best := by
  intro js
  induction js with
  | nil => intro acc best _ _; rfl
  | cons j0 js ih =>
    intro acc best hbhi hk
    have hj0 : j0 < bhi := hbhi j0 (by simp)
    simp only [flmInner]
    rw [if_neg (by omega : ¬ j0 < 0), if_neg (by omega : ¬ bhi ≤ j0)]
    have hk0 := hk j0 (by simp)
    simp only [kval] at hk0
    rw [if_neg (by omega : ¬ best.bestsize < (if j0 = 0 then 0 else old (j0 - 1)) + 1)]
    exact ih _ best (fun j hj => hbhi j (by simp [hj]))
      (fun j hj => hk j (by simp [hj]))

lemma flmInner_best (old : Nat → Nat) (bhi m : Nat) :
    ∀ (js : List Nat) (acc : Nat → Nat) (best : Best),
      List.Pairwise (· < ·) js →
      (∀ j ∈ js, j < bhi) →
      m ∈ js →
      (∀ j ∈ js, j < m → kval old j ≤ best.bestsize) →
      (∀ j ∈ js, m < j → kval old j ≤
        (if best.bestsize < kval old m then kval old m else best.bestsize)) →
      (flmInner m old 0 bhi js acc best).2 =
        (if best.bestsize < kval old m then
          (⟨m + 1 - kval old m, m + 1 - kval old m, kval old m⟩ : Best)
        else best) := by
  intro js
  induction js with
  | nil => intro acc best _ _ hm _ _; exact absurd hm (by simp)
  | cons j0 js ih =>
    intro acc best hpw hbhi hm hlt hgt
    have hj0 : j0 < bhi := hbhi j0 (by simp)
    simp only [flmInner]
    rw [if_neg (by omega : ¬ j0 < 0), if_neg (by omega : ¬ bhi ≤ j0)]
    rcases Nat.lt_trichotomy j0 m with hcase | hcase | hcase
    · have hlt0 := hlt j0 (by simp) hcase
      simp only [kval] at hlt0
      rw [if_neg (by omega : ¬ best.bestsize <
        (if j0 = 0 then 0 else old (j0 - 1)) + 1)]
      have hm' : m ∈ js := by
        rcases List.mem_cons.mp hm with h | h
        · omega
        · exact h
      exact ih _ best (List.Pairwise.of_cons hpw)
        (fun j hj => hbhi j (by simp [hj])) hm'
        (fun j hj hjm => hlt j (by simp [hj]) hjm)
        (fun j hj hjm => hgt j (by simp [hj]) hjm)
    · subst hcase
      have htail : ∀ j ∈ js, j0 < j := fun j hj =>
        (List.pairwise_cons.mp hpw).1 j hj
      by_cases hup : best.bestsize < kval old j0
      · have hup' : best.bestsize < (if j0 = 0 then 0 else old (j0 - 1)) + 1 := by
          simpa [kval] using hup
        rw [if_pos hup']
        rw [flmInner_noUpdate j0 old bhi js _ _
          (fun j hj => hbhi j (by simp [hj]))
          (fun j hj => by
            have := hgt j (by simp [hj]) (htail j hj)
            rw [if_pos hup] at this
            simpa [kval] using this)]
        rw [if_pos hup]
        rfl
      · have hup' : ¬ best.bestsize < (if j0 = 0 then 0 else old (j0 - 1)) + 1 := by
          simpa [kval] using hup
        rw [if_neg hup']
        rw [flmInner_noUpdate j0 old bhi js _ _
          (fun j hj => hbhi j (by simp [hj]))
          (fun j hj => by
            have := hgt j (by simp [hj]) (htail j hj)
            rw [if_neg hup] at this
            exact this)]
        rw [if_neg hup]
    · exfalso
      rcases List.mem_cons.mp hm with h | h
      · omega
      · have := (List.pairwise_cons.mp hpw).1 m h
        omega

lemma b2j_mem {a : Str} {c : Char} {j : Nat} :
    j ∈ b2j a c ↔ (isPopular a c = false ∧ j < a.length ∧ a.getD j ' ' = c) := by
  unfold b2j
  by_cases hp : isPopular a c
  · rw [if_pos hp]
    constructor
    · intro h
      exact absurd h (List.not_mem_nil j)
    · rintro ⟨h1, -, -⟩
      rw [hp] at h1
      cases h1
  · rw [if_neg hp]
    simp only [List.mem_filter, List.mem_range, beq_iff_eq]
    constructor
    · rintro ⟨h1, h2⟩
      exact ⟨by simpa using hp, h1, h2⟩
    · rintro ⟨-, h1, h2⟩
      exact ⟨h1, h2⟩

lemma b2j_sorted (a : Str) (c : Char) : List.Pairwise (· < ·) (b2j a c) := by
  unfold b2j
  split
  · simp
  · exact List.Pairwise.filter _ (List.pairwise_lt_range _)

/-- Invariant of the outer `find_longest_match` loop on identical sequences,
after rows `0 .. m-1` have been processed: the best match sits on the
diagonal and ends within the processed rows, it dominates every run of
non-purged positions seen so far, and `j2len` holds chain lengths bounded by
those runs, realizing the diagonal chain exactly. -/
def OuterInv (a : Str) (m : Nat) (j2len : Nat → Nat) (best : Best) : Prop :=
  best.besti = best.bestj ∧
  best.besti + best.bestsize ≤ m ∧
  (∀ j, j < m → runLen a j ≤ best.bestsize) ∧
  (∀ j, j2len j ≤ runLen a j) ∧
  (∀ j, j2len j ≤ (if m = 0 then 0 else runLen a (m - 1))) ∧
  (1 ≤ m → j2len (m - 1) = runLen a (m - 1))

lemma outer_step (a : Str) (m : Nat) (hm : m < a.length) (j2len : Nat → Nat)
    (best : Best) (hinv : OuterInv a m j2len best) :
    OuterInv a (m + 1)
      (flmInner m j2len 0 a.length (b2j a (a.getD m ' ')) (fun _ => 0) best).1
      (flmInner m j2len 0 a.length (b2j a (a.getD m ' ')) (fun _ => 0) best).2 := by
  obtain ⟨hdiag, hsum, hdom, hbnd, hprev, hlast⟩ := hinv
  by_cases hpop : isPopular a (a.getD m ' ') = true
  · have hjs : b2j a (a.getD m ' ') = [] := by unfold b2j; rw [if_pos hpop]
    rw [hjs]
    show OuterInv a (m + 1) (fun _ => 0) best
    have hok : okPos a m = false := by unfold okPos; rw [hpop]; rfl
    have hrm : runLen a m = 0 := by
      cases m with
      | zero => rw [runLen_zero, hok]; rfl
      | succ m' => rw [runLen_succ, hok]; rfl
    refine ⟨hdiag, by omega, ?_, ?_, ?_, ?_⟩
    · intro j hj
      rcases Nat.lt_or_ge j m with h | h
      · exact hdom j h
      · have : j = m := by omega
        subst this
        simp [hrm]
    · intro j
      simp
    · intro j
      simp
    · intro _
      show (0 : Nat) = runLen a (m + 1 - 1)
      simp [hrm]
  · have hpop' : isPopular a (a.getD m ' ') = false := by
      simpa using hpop
    have hokm : okPos a m = true := by unfold okPos; rw [hpop']; rfl
    have hrm : runLen a m = (if m = 0 then 0 else runLen a (m - 1)) + 1 := by
      cases m with
      | zero => rw [runLen_zero, if_pos hokm]; rfl
      | succ m' => rw [runLen_succ, if_pos hokm]; simp
    have hkm : kval j2len m = runLen a m := by
      unfold kval
      cases m with
      | zero => rw [hrm]; simp
      | succ m' =>
        have := hlast (by omega)
        simp only [Nat.succ_sub_one] at this
        rw [hrm]
        simp [this]
    have hmem : m ∈ b2j a (a.getD m ' ') := b2j_mem.mpr ⟨hpop', hm, rfl⟩
    have hsortjs := b2j_sorted a (a.getD m ' ')
    have hjlt : ∀ j ∈ b2j a (a.getD m ' '), j < a.length :=
      fun j hj => (b2j_mem.mp hj).2.1
    have hjok : ∀ j ∈ b2j a (a.getD m ' '), okPos a j = true := by
      intro j hj
      have h := (b2j_mem.mp hj).2.2
      unfold okPos
      rw [h, hpop']
      rfl
    have hrun_succ : ∀ j ∈ b2j a (a.getD m ' '), ∀ j', j = j' + 1 →
        runLen a j = runLen a j' + 1 := by
      intro j hj j' hj'
      subst hj'
      rw [runLen_succ, if_pos (hjok _ hj)]
    have hrun_zero : (0 : Nat) ∈ b2j a (a.getD m ' ') → runLen a 0 = 1 := by
      intro hj
      rw [runLen_zero, if_pos (hjok _ hj)]
    have hkle : ∀ j ∈ b2j a (a.getD m ' '), kval j2len j ≤ runLen a j := by
      intro j hj
      unfold kval
      cases j with
      | zero =>
        rw [hrun_zero hj]
        simp
      | succ j' =>
        rw [hrun_succ _ hj j' rfl]
        have := hbnd j'
        simp only [Nat.succ_sub_one, if_neg (Nat.succ_ne_zero j')]
        omega
    have hkle2 : ∀ j ∈ b2j a (a.getD m ' '), kval j2len j ≤ runLen a m := by
      intro j hj
      unfold kval
      cases j with
      | zero =>
        rw [hrm]
        simp
      | succ j' =>
        have := hprev j'
        rw [hrm]
        simp only [Nat.succ_sub_one, if_neg (Nat.succ_ne_zero j')]
        omega
    have hlt5 : ∀ j ∈ b2j a (a.getD m ' '), j < m →
        kval j2len j ≤ best.bestsize :=
      fun j hj hjm => le_trans (hkle j hj) (hdom j hjm)
    have hgt6 : ∀ j ∈ b2j a (a.getD m ' '), m < j → kval j2len j ≤
        (if best.bestsize < kval j2len m then kval j2len m
         else best.bestsize) := by
      intro j hj hmj
      have hle : kval j2len j ≤ kval j2len m := by
        have hj0 : j ≠ 0 := by omega
        have h5 := hprev (j - 1)
        rw [hkm, hrm]
        unfold kval
        rw [if_neg hj0]
        by_cases hm0 : m = 0
        · rw [if_pos hm0] at h5 ⊢
          omega
        · rw [if_neg hm0] at h5 ⊢
          omega
      split <;> omega
    rw [flmInner_best j2len a.length m (b2j a (a.getD m ' ')) _ best hsortjs
      hjlt hmem hlt5 hgt6,
      flmInner_acc m j2len a.length (b2j a (a.getD m ' ')) _ best hjlt]
    have hk1 : 1 ≤ kval j2len m := by unfold kval; omega
    have hkm1 : kval j2len m ≤ m + 1 := by rw [hkm]; exact runLen_le a m
    constructor
    · split
      · rfl
      · exact hdiag
    constructor
    · split
      · simp only
        omega
      · omega
    constructor
    · intro j hj
      rcases Nat.lt_or_ge j m with h | h
      · have h1 := hdom j h
        split
        · rename_i hup
          simp only
          omega
        · exact h1
      · have : j = m := by omega
        subst this
        rw [← hkm]
        split
        · simp
        · rename_i hup
          omega
    constructor
    · intro j
      show (if j ∈ b2j a (a.getD m ' ') then kval j2len j else 0) ≤ runLen a j
      split
      · rename_i hjmem
        exact hkle j hjmem
      · simp
    constructor
    · intro j
      show (if j ∈ b2j a (a.getD m ' ') then kval j2len j else 0) ≤
        (if m + 1 = 0 then 0 else runLen a (m + 1 - 1))
      rw [if_neg (Nat.succ_ne_zero m)]
      simp only [Nat.add_sub_cancel]
      split
      · rename_i hjmem
        exact hkle2 j hjmem
      · simp
    · intro _
      show (if m + 1 - 1 ∈ b2j a (a.getD m ' ') then kval j2len (m + 1 - 1)
        else 0) = runLen a (m + 1 - 1)
      simp only [Nat.add_sub_cancel]
      rw [if_pos hmem]
      exact hkm

lemma flmOuter_inv (a : Str) : ∀ (t m : Nat) (j2len : Nat → Nat) (best : Best),
    m + t ≤ a.length → OuterInv a m j2len best →
    ∃ J, OuterInv a (m + t) J
      (flmOuter a (b2j a) 0 a.length (List.range' m t) j2len best) := by
  intro t
  induction t with
  | zero =>
    intro m j2len best h hinv
    exact ⟨j2len, by simpa using hinv⟩
  | succ t ih =>
    intro m j2len best h hinv
    have hrange : List.range' m (t + 1) = m :: List.range' (m + 1) t := rfl
    rw [hrange]
    simp only [flmOuter]
    have hstep := outer_step a m (by omega) j2len best hinv
    have hres := ih (m + 1) _ _ (by omega) hstep
    have harith : m + (t + 1) = m + 1 + t := by omega
    rw [harith]
    exact hres

lemma extendL_diag (a : Str) : ∀ (fuel i s : Nat), i ≤ fuel →
    extendLoopL a a 0 0 (fun _ => false) false fuel ⟨i, i, s⟩ =
      ⟨0, 0, s + i⟩ := by
  intro fuel
  induction fuel with
  | zero =>
    intro i s h
    have hi : i = 0 := by omega
    subst hi
    rfl
  | succ fuel ih =>
    intro i s h
    cases i with
    | zero =>
      show extendLoopL a a 0 0 (fun _ => false) false (fuel + 1) ⟨0, 0, s⟩ =
        ⟨0, 0, s + 0⟩
      simp only [extendLoopL]
      rw [if_neg (by simp)]
      simp
    | succ i' =>
      simp only [extendLoopL]
      rw [if_pos (by simp)]
      simp only [Nat.add_sub_cancel]
      rw [ih i' (s + 1) (by omega)]
      have harith : s + 1 + i' = s + (i' + 1) := by omega
      rw [harith]

lemma extendR_diag (a : Str) : ∀ (fuel s : Nat), s ≤ a.length →
    a.length - s ≤ fuel →
    extendLoopR a a a.length a.length (fun _ => false) false fuel ⟨0, 0, s⟩ =
      ⟨0, 0, a.length⟩ := by
  intro fuel
  induction fuel with
  | zero =>
    intro s h1 h2
    have hs : s = a.length := by omega
    subst hs
    rfl
  | succ fuel ih =>
    intro s h1 h2
    by_cases hs : s < a.length
    · simp only [extendLoopR]
      rw [if_pos (by simp [hs])]
      exact ih (s + 1) (by omega) (by omega)
    · have hs' : s = a.length := by omega
      subst hs'
      simp only [extendLoopR]
      rw [if_neg (by simp)]

lemma extendL_junk_noop (a b : Str) (alo blo : Nat) : ∀ (fuel : Nat) (best : Best),
    extendLoopL a b alo blo (fun _ => false) true fuel best = best := by
  intro fuel best
  cases fuel with
  | zero => rfl
  | succ fuel =>
    simp only [extendLoopL]
    rw [if_neg (by simp)]

lemma extendR_noop_of (a b : Str) (ahi bhi : Nat) (jf : Char → Bool)
    (flag : Bool) : ∀ (fuel : Nat) (best : Best),
    ahi ≤ best.besti + best.bestsize →
    extendLoopR a b ahi bhi jf flag fuel best = best := by
  intro fuel best h
  cases fuel with
  | zero => rfl
  | succ fuel =>
    simp only [extendLoopR]
    rw [if_neg (by intro hc; omega)]

lemma extendR_junk_noop (a b : Str) (ahi bhi : Nat) : ∀ (fuel : Nat) (best : Best),
    extendLoopR a b ahi bhi (fun _ => false) true fuel best = best := by
  intro fuel best
  cases fuel with
  | zero => rfl
  | succ fuel =>
    simp only [extendLoopR]
    rw [if_neg (by simp)]

/-- `find_longest_match` of a sequence with itself returns the whole range:
whatever the inner loop produced stays on the diagonal, and the non-junk
extension loops then stretch it to `[0, n)`. -/
lemma flm_self (a : Str) :
    find_longest_match a a (b2j a) (fun _ => false) 0 a.length 0 a.length =
      ⟨0, 0, a.length⟩ := by
  unfold find_longest_match
  simp only [Nat.sub_zero]
  obtain ⟨J, hinv⟩ := flmOuter_inv a a.length 0 (fun _ => 0) ⟨0, 0, 0⟩
    (by omega)
    ⟨rfl, by decide, fun j hj => absurd hj (by omega), fun j => Nat.zero_le _,
     fun j => by simp, fun h => absurd h (by omega)⟩
  simp only [Nat.zero_add] at hinv
  set B := flmOuter a (b2j a) 0 a.length (List.range' 0 a.length)
    (fun _ => 0) (⟨0, 0, 0⟩ : Best) with hB
  obtain ⟨hdiag, hsum, -, -, -, -⟩ := hinv
  rcases hBv : B with ⟨bi, bj2, bs⟩
  rw [hBv] at hdiag hsum
  simp only at hdiag hsum
  subst hdiag
  simp only
  rw [extendL_diag a bi bi bs (Nat.le_refl bi)]
  rw [extendR_diag a (a.length + a.length) (bs + bi) (by omega) (by omega)]
  rw [extendL_junk_noop]
  rw [extendR_junk_noop]

lemma matchTotal_succ (a b : Str) (bj : Char → List Nat) (jf : Char → Bool)
    (fuel alo ahi blo bhi : Nat) :
    matchTotal a b bj jf (fuel + 1) alo ahi blo bhi =
      (let r := find_longest_match a b bj jf alo ahi blo bhi
       if r.bestsize = 0 then 0
       else
        r.bestsize +
        (if alo < r.besti ∧ blo < r.bestj then
          matchTotal a b bj jf fuel alo r.besti blo r.bestj
        else 0) +
        (if r.besti + r.bestsize < ahi ∧ r.bestj + r.bestsize < bhi then
          matchTotal a b bj jf fuel (r.besti + r.bestsize) ahi
            (r.bestj + r.bestsize) bhi
        else 0)) := rfl

/-- The total matched size of a sequence against itself is its length. -/
lemma seqMatcherMatches_self (a : Str) : seqMatcherMatches a a = a.length := by
  unfold seqMatcherMatches
  rw [matchTotal_succ]
  simp only [flm_self]
  by_cases h : a.length = 0
  · rw [if_pos (by simpa using h)]
    omega
  · rw [if_neg (by simpa using h)]
    rw [if_neg (by simp)]
    rw [if_neg (by simp)]
    simp

/-- With an empty first sequence the matcher finds nothing. -/
lemma flm_empty_left (b : Str) (bj : Char → List Nat) :
    find_longest_match [] b bj (fun _ => false) 0 0 0 b.length =
      ⟨0, 0, 0⟩ := by
  unfold find_longest_match
  simp only [Nat.sub_zero]
  have h1 : flmOuter [] bj 0 b.length (List.range' 0 0) (fun _ => 0)
      (⟨0, 0, 0⟩ : Best) = ⟨0, 0, 0⟩ := rfl
  rw [h1]
  have h2 : extendLoopL [] b 0 0 (fun _ => false) false
      (⟨0, 0, 0⟩ : Best).besti ⟨0, 0, 0⟩ = ⟨0, 0, 0⟩ := rfl
  rw [h2]
  rw [extendR_noop_of [] b 0 b.length (fun _ => false) false (0 + b.length)
    ⟨0, 0, 0⟩ (by decide)]
  rw [extendL_junk_noop]
  rw [extendR_noop_of [] b 0 b.length (fun _ => false) true (0 + b.length)
    ⟨0, 0, 0⟩ (by decide)]

lemma seqMatcherMatches_empty_left (b : Str) : seqMatcherMatches [] b = 0 := by
  unfold seqMatcherMatches
  have hfuel : ([] : Str).length + b.length + 1 = (b.length + 0) + 1 := by simp
  rw [hfuel, matchTotal_succ]
  simp only [List.length_nil, flm_empty_left]
  simp

/-! ### Range bounds of the matcher: the score never exceeds 100 -/

@[simp] lemma Best.besti_mk (x y z : Nat) : (Best.mk x y z).besti = x := rfl

@[simp] lemma Best.bestj_mk (x y z : Nat) : (Best.mk x y z).bestj = y := rfl

@[simp] lemma Best.bestsize_mk (x y z : Nat) : (Best.mk x y z).bestsize = z := rfl

/-- The best match lies inside the current search window. -/
def RangeInv (alo blo ahi bhi : Nat) (best : Best) : Prop :=
  alo ≤ best.besti ∧ blo ≤ best.bestj ∧
  best.besti + best.bestsize ≤ ahi ∧ best.bestj + best.bestsize ≤ bhi

lemma flmInner_range (i alo ahi blo bhi : Nat) (old : Nat → Nat)
    (hia : i < ahi) (hai : alo ≤ i)
    (hold1 : ∀ j, old j ≤ i - alo)
    (hold2 : ∀ j, old j ≤ j + 1 - blo) :
    ∀ (js : List Nat) (acc : Nat → Nat) (best : Best),
      RangeInv alo blo ahi bhi best →
      (∀ j, acc j ≤ i + 1 - alo) → (∀ j, acc j ≤ j + 1 - blo) →
      RangeInv alo blo ahi bhi (flmInner i old blo bhi js acc best).2 ∧
      (∀ j, (flmInner i old blo bhi js acc best).1 j ≤ i + 1 - alo) ∧
      (∀ j, (flmInner i old blo bhi js acc best).1 j ≤ j + 1 - blo) := by
  intro js
  induction js with
  | nil => intro acc best hb h1 h2; exact ⟨hb, h1, h2⟩
  | cons j0 js ih =>
    intro acc best hb h1 h2
    simp only [flmInner]
    by_cases hskip : j0 < blo
    · rw [if_pos hskip]
      exact ih acc best hb h1 h2
    · rw [if_neg hskip]
      by_cases hbrk : bhi ≤ j0
      · rw [if_pos hbrk]
        exact ⟨hb, h1, h2⟩
      · rw [if_neg hbrk]
        have hkb1 : (if j0 = 0 then 0 else old (j0 - 1)) + 1 ≤ i + 1 - alo := by
          by_cases hj0 : j0 = 0
          · rw [if_pos hj0]; omega
          · rw [if_neg hj0]
            have := hold1 (j0 - 1)
            omega
        have hkb2 : (if j0 = 0 then 0 else old (j0 - 1)) + 1 ≤ j0 + 1 - blo := by
          by_cases hj0 : j0 = 0
          · rw [if_pos hj0]; omega
          · rw [if_neg hj0]
            have := hold2 (j0 - 1)
            omega
        refine ih _ _ ?_ ?_ ?_
        · obtain ⟨r1, r2, r3, r4⟩ := hb
          by_cases hup : best.bestsize <
              (if j0 = 0 then 0 else old (j0 - 1)) + 1
          · rw [if_pos hup]
            refine ⟨?_, ?_, ?_, ?_⟩ <;>
              simp only [Best.besti_mk, Best.bestj_mk, Best.bestsize_mk] <;>
              omega
          · rw [if_neg hup]
            exact ⟨r1, r2, r3, r4⟩
        · intro j
          by_cases hj : j = j0
          · simp [hj, hkb1]
          · simp only [if_neg hj]
            exact h1 j
        · intro j
          by_cases hj : j = j0
          · subst hj
            simp [hkb2]
          · simp only [if_neg hj]
            exact h2 j

lemma flmOuter_range (a : Str) (bj : Char → List Nat)
    (alo blo ahi bhi : Nat) :
    ∀ (t m : Nat) (j2len : Nat → Nat) (best : Best), alo ≤ m → m + t ≤ ahi →
      (∀ j, j2len j ≤ m - alo) → (∀ j, j2len j ≤ j + 1 - blo) →
      RangeInv alo blo ahi bhi best →
      RangeInv alo blo ahi bhi
        (flmOuter a bj blo bhi (List.range' m t) j2len best) := by
  intro t
  induction t with
  | zero => intro m j2len best _ _ _ _ hb; exact hb
  | succ t ih =>
    intro m j2len best ham hta hj1 hj2 hb
    have hrange : List.range' m (t + 1) = m :: List.range' (m + 1) t := rfl
    rw [hrange]
    simp only [flmOuter]
    have hstep := flmInner_range m alo ahi blo bhi j2len (by omega) ham hj1 hj2
      (bj (a.getD m ' ')) (fun _ => 0) best hb (fun j => Nat.zero_le _)
      (fun j => Nat.zero_le _)
    exact ih (m + 1) _ _ (by omega) (by omega)
      (fun j => hstep.2.1 j) hstep.2.2 hstep.1

lemma extendL_range (a b : Str) (alo blo ahi bhi : Nat) (jf : Char → Bool)
    (flag : Bool) : ∀ (fuel : Nat) (best : Best),
    RangeInv alo blo ahi bhi best →
    RangeInv alo blo ahi bhi (extendLoopL a b alo blo jf flag fuel best) := by
  intro fuel
  induction fuel with
  | zero => intro best hb; exact hb
  | succ fuel ih =>
    intro best hb
    obtain ⟨r1, r2, r3, r4⟩ := hb
    simp only [extendLoopL]
    split
    · rename_i hcond
      obtain ⟨hc1, hc2, -, -⟩ := hcond
      refine ih _ ⟨?_, ?_, ?_, ?_⟩ <;>
        simp only [Best.besti_mk, Best.bestj_mk, Best.bestsize_mk] <;>
        omega
    · exact ⟨r1, r2, r3, r4⟩

lemma extendR_range (a b : Str) (alo blo ahi bhi : Nat) (jf : Char → Bool)
    (flag : Bool) : ∀ (fuel : Nat) (best : Best),
    RangeInv alo blo ahi bhi best →
    RangeInv alo blo ahi bhi (extendLoopR a b ahi bhi jf flag fuel best) := by
  intro fuel
  induction fuel with
  | zero => intro best hb; exact hb
  | succ fuel ih =>
    intro best hb
    obtain ⟨r1, r2, r3, r4⟩ := hb
    simp only [extendLoopR]
    split
    · rename_i hcond
      obtain ⟨hc1, hc2, -, -⟩ := hcond
      refine ih _ ⟨?_, ?_, ?_, ?_⟩ <;>
        simp only [Best.besti_mk, Best.bestj_mk, Best.bestsize_mk] <;>
        omega
    · exact ⟨r1, r2, r3, r4⟩

lemma flm_range (a b : Str) (bj : Char → List Nat) (jf : Char → Bool)
    (alo ahi blo bhi : Nat) (ha : alo ≤ ahi) (hb : blo ≤ bhi) :
    RangeInv alo blo ahi bhi (find_longest_match a b bj jf alo ahi blo bhi) := by
  unfold find_longest_match
  apply extendR_range
  apply extendL_range
  apply extendR_range
  apply extendL_range
  apply flmOuter_range a bj alo blo ahi bhi (ahi - alo) alo (fun _ => 0)
    ⟨alo, blo, 0⟩ (Nat.le_refl alo) (by omega) (fun j => Nat.zero_le _)
    (fun j => Nat.zero_le _)
  refine ⟨Nat.le_refl alo, Nat.le_refl blo, ?_, ?_⟩ <;>
    simp only [Best.besti_mk, Best.bestj_mk, Best.bestsize_mk] <;>
    omega

lemma matchTotal_le (a b : Str) (bj : Char → List Nat) (jf : Char → Bool) :
    ∀ (fuel alo ahi blo bhi : Nat), alo ≤ ahi → blo ≤ bhi →
      matchTotal a b bj jf fuel alo ahi blo bhi ≤ ahi - alo ∧
      matchTotal a b bj jf fuel alo ahi blo bhi ≤ bhi - blo := by
  intro fuel
  induction fuel with
  | zero => intro alo ahi blo bhi _ _; exact ⟨Nat.zero_le _, Nat.zero_le _⟩
  | succ fuel ih =>
    intro alo ahi blo bhi ha hb
    rw [matchTotal_succ]
    obtain ⟨r1, r2, r3, r4⟩ := flm_range a b bj jf alo ahi blo bhi ha hb
    set r := find_longest_match a b bj jf alo ahi blo bhi with hr
    by_cases h0 : r.bestsize = 0
    · rw [if_pos h0]
      exact ⟨Nat.zero_le _, Nat.zero_le _⟩
    · rw [if_neg h0]
      have hleft : (if alo < r.besti ∧ blo < r.bestj then
          matchTotal a b bj jf fuel alo r.besti blo r.bestj else 0) ≤
          (r.besti - alo) ⊓ (r.bestj - blo) := by
        split
        · rename_i hc
          have := ih alo r.besti blo r.bestj (by omega) (by omega)
          omega
        · omega
      have hright : (if r.besti + r.bestsize < ahi ∧
          r.bestj + r.bestsize < bhi then
          matchTotal a b bj jf fuel (r.besti + r.bestsize) ahi
            (r.bestj + r.bestsize) bhi else 0) ≤
          (ahi - (r.besti + r.bestsize)) ⊓ (bhi - (r.bestj + r.bestsize)) := by
        split
        · rename_i hc
          have := ih (r.besti + r.bestsize) ahi (r.bestj + r.bestsize) bhi
            (by omega) (by omega)
          omega
        · omega
      exact ⟨by omega, by omega⟩

/-- The similarity score is at most 100 for all inputs. -/
lemma ratioTimes100_le (a b : Str) : ratioTimes100 a b ≤ 100 := by
  unfold ratioTimes100
  by_cases hT : a.length + b.length = 0
  · rw [if_pos hT]
  · rw [if_neg hT]
    have hM := matchTotal_le a b (b2j b) (fun _ => false)
      (a.length + b.length + 1) 0 a.length 0 b.length (Nat.zero_le _)
      (Nat.zero_le _)
    simp only [Nat.sub_zero] at hM
    have h2 : 200 * seqMatcherMatches a b ≤
        100 * (a.length + b.length) := by
      unfold seqMatcherMatches
      omega
    calc 200 * seqMatcherMatches a b / (a.length + b.length) ≤
        100 * (a.length + b.length) / (a.length + b.length) :=
          Nat.div_le_div_right h2
      _ = 100 := Nat.mul_div_cancel _ (by omega)

/-- C3 amended: grading an answer identical to the reference always yields
100 (for any reference, including ones long and repetitive enough to trigger
autojunk — the extension loops of `find_longest_match` still match identical
sequences completely), and grading the empty string yields 0 whenever the
reference answer is non-empty.  When the reference is itself empty, grading
the empty string yields 100, since `difflib` defines the ratio of two empty
sequences as 1.0.  The score always lies in [0, 100] (it is a `Nat`, and
bounded above by 100 for every user answer). -/
theorem similarity_identical_and_empty (R : Str) :
    compute_similarity_score R R = 100 ∧
    (R ≠ [] → compute_similarity_score [] R = 0) ∧
    (∀ u : Str, compute_similarity_score u R ≤ 100) := by
  refine ⟨?_, ?_, fun u => ratioTimes100_le (pyLower u) (pyLower R)⟩
  · show ratioTimes100 (pyLower R) (pyLower R) = 100
    unfold ratioTimes100
    by_cases hq : (pyLower R).length + (pyLower R).length = 0
    · rw [if_pos hq]
    · rw [if_neg hq]
      rw [seqMatcherMatches_self]
      have hL : 0 < (pyLower R).length := by omega
      have h200 : 200 * (pyLower R).length =
          100 * ((pyLower R).length + (pyLower R).length) := by ring
      rw [h200, Nat.mul_div_cancel _ (by omega)]
  · intro hR
    show ratioTimes100 [] (pyLower R) = 0
    unfold ratioTimes100
    have hlen : ¬ (([] : Str).length + (pyLower R).length = 0) := by
      simp only [List.length_nil, pyLower, List.length_map, Nat.zero_add]
      intro h
      exact hR (List.length_eq_zero.mp h)
    rw [if_neg hlen]
    rw [seqMatcherMatches_empty_left]
    simp

/-- C3 counterexample: when the generation path returns an empty reference
answer, grading the empty string as user answer scores 100, not 0 —
`difflib` defines the ratio of two empty sequences as `1.0`. -/
theorem similarity_empty_reference_counterexample :
    compute_similarity_score [] [] ≠ 0 ∧
    compute_similarity_score [] [] = 100 := by
  decide

/-- Witness for C3 at a concrete non-empty reference answer. -/
theorem similarity_identical_and_empty_witness :
    compute_similarity_score "Paris.".data "Paris.".data = 100 ∧
    compute_similarity_score [] "Paris.".data = 0 :=
  ⟨(similarity_identical_and_empty "Paris.".data).1,
   (similarity_identical_and_empty "Paris.".data).2.1 (by decide)⟩

end SRA
